/-
Verification of the active-variable domain construction and constrained
sampling code in active_subspaces/domains.py, against its specification.

Conventions of the embedding:
* numpy floating-point arrays are modelled over the rationals; vectors are
  functions out of a finite index type, matrices are Mathlib matrices.
* numpy randomness (np.random.normal) is modelled by an explicit stream of
  draws passed as a parameter.
* External collaborators that the spec places out of scope — the linear
  program oracle (utils.qp_solver.QPSolver), the convex hull routine
  (scipy.spatial.ConvexHull) and the Euclidean norm routine
  (np.linalg.norm) — are passed as function parameters.
-/
import Mathlib

namespace Domains

/-- numpy sign: componentwise sign with sign 0 = 0. -/
def qsign (x : ℚ) : ℚ := if x < 0 then -1 else if 0 < x then 1 else 0

/-- The sign vector np.sign(W1) of a length-m column vector W1. -/
def signv {m : ℕ} (W1 : Fin m → ℚ) : Fin m → ℚ := fun i => qsign (W1 i)

/-- np.dot of two length-m vectors. -/
def dotv {m : ℕ} (a b : Fin m → ℚ) : ℚ := ∑ i, a i * b i

/-- interval_endpoints(W1) from domains.py, for W1 of shape (m, 1).
The Python code returns Y = [[yl], [yu]] (2 by 1) and X = [xl ; xu]
(2 by m); we return the pair of scalars (yl, yu) and the pair of rows
(xl, xu).
Python:
  y0 = np.dot(W1.T, np.sign(W1))[0]
  if y0 < -y0: yl, yu = y0, -y0 ; xl, xu = np.sign(W1), -np.sign(W1)
  else:        yl, yu = -y0, y0 ; xl, xu = -np.sign(W1), np.sign(W1) -/
def interval_endpoints {m : ℕ} (W1 : Fin m → ℚ) :
    (ℚ × ℚ) × ((Fin m → ℚ) × (Fin m → ℚ)) :=
  let y0 : ℚ := dotv W1 (signv W1)
  if y0 < -y0 then
    ((y0, -y0), (signv W1, fun i => -(signv W1 i)))
  else
    ((-y0, y0), (fun i => -(signv W1 i), signv W1))

lemma qsign_mul_self (x : ℚ) : x * qsign x = |x| := by
  unfold qsign
  rcases lt_trichotomy x 0 with h | h | h
  · rw [if_pos h, abs_of_neg h]; ring
  · simp [h]
  · rw [if_neg (not_lt.mpr h.le), if_pos h, abs_of_pos h]; ring

lemma dotv_signv_nonneg {m : ℕ} (W1 : Fin m → ℚ) : 0 ≤ dotv W1 (signv W1) := by
  unfold dotv signv
  refine Finset.sum_nonneg fun i _ => ?_
  rw [qsign_mul_self]
  exact abs_nonneg _

lemma dotv_signv_self {m : ℕ} (W1 : Fin m → ℚ) :
    dotv W1 (signv W1) = ∑ i, |W1 i| := by
  unfold dotv signv
  refine Finset.sum_congr rfl fun i _ => ?_
  exact qsign_mul_self (W1 i)

/-- The branch condition y0 < -y0 never holds, since y0 is a sum of
absolute values. -/
lemma interval_branch {m : ℕ} (W1 : Fin m → ℚ) :
    ¬ dotv W1 (signv W1) < -dotv W1 (signv W1) := by
  have h := dotv_signv_nonneg W1
  intro hlt
  nlinarith

lemma interval_endpoints_eq {m : ℕ} (W1 : Fin m → ℚ) :
    interval_endpoints W1 =
      ((-dotv W1 (signv W1), dotv W1 (signv W1)),
        (fun i => -(signv W1 i), signv W1)) := by
  unfold interval_endpoints
  rw [if_neg (interval_branch W1)]

/-- C4: for every W1 of shape (m, 1), interval_endpoints returns
(yl, yu) with yl ≤ yu, and sign rows xl, xu with W1 dot xl = yl and
W1 dot xu = yu exactly. -/
theorem C4_interval_endpoints_roundtrip {m : ℕ} (W1 : Fin m → ℚ) :
    (interval_endpoints W1).1.1 ≤ (interval_endpoints W1).1.2 ∧
    dotv W1 (interval_endpoints W1).2.1 = (interval_endpoints W1).1.1 ∧
    dotv W1 (interval_endpoints W1).2.2 = (interval_endpoints W1).1.2 := by
  rw [interval_endpoints_eq]
  have h0 := dotv_signv_nonneg W1
  refine ⟨by simp only; linarith, ?_, rfl⟩
  simp only
  unfold dotv
  rw [← Finset.sum_neg_distrib]
  congr 1
  funext i
  ring

/-- C10: y0 = W1 transposed times sign(W1) is the sum of absolute values
of the entries of W1, hence nonnegative, so the branch for y0 < -y0 is
never taken: interval_endpoints always returns yl = -y0, yu = y0,
xl = -sign(W1), xu = sign(W1). -/
theorem C10_else_branch_always {m : ℕ} (W1 : Fin m → ℚ) :
    dotv W1 (signv W1) = ∑ i, |W1 i| ∧
    ¬ dotv W1 (signv W1) < -dotv W1 (signv W1) ∧
    interval_endpoints W1 =
      ((-dotv W1 (signv W1), dotv W1 (signv W1)),
        (fun i => -(signv W1 i), signv W1)) :=
  ⟨dotv_signv_self W1, interval_branch W1, interval_endpoints_eq W1⟩

/-! ### Vertex count oracle nzv -/

/-- Functional update of the memo table: M[a, b] = v.  Models the numpy
assignment M[m-1, n-1] = value on the table passed through nzv. -/
def Mupd (M : ℕ → ℕ → ℚ) (a b : ℕ) (v : ℚ) : ℕ → ℕ → ℚ :=
  fun i j => if i = a ∧ j = b then v else M i j

mutual

/-- nzv(m, n, M) from domains.py.  The table M (numpy float array, 0 =
unset) is threaded explicitly; the top-level Python call allocates a
fresh zero table (M=None branch).  The guard for m = 0 or n = 0 is
outside the Python function's meaningful domain (numpy would index
negatively there); all claims restrict to m, n >= 1.
Python:
  if m==1 or n==1: M[m-1, n-1] = 2
  elif M[m-1, n-1]==0:
    k1, M = nzv(m-1, n-1, M); k2, M = nzv(m-1, n, M)
    M[m-1, n-1] = k1 + k2
    for i in range(n-1): M = nzv(m, i+1, M)[1]
  k = M[m-1, n-1]; return k, M -/
def nzv (m n : ℕ) (M : ℕ → ℕ → ℚ) : ℚ × (ℕ → ℕ → ℚ) :=
  if h0 : m = 0 ∨ n = 0 then (0, M)
  else if h1 : m = 1 ∨ n = 1 then
    let M1 := Mupd M (m-1) (n-1) 2
    (M1 (m-1) (n-1), M1)
  else if hz : M (m-1) (n-1) = 0 then
    let r1 := nzv (m-1) (n-1) M
    let r2 := nzv (m-1) n r1.2
    let M3 := Mupd r2.2 (m-1) (n-1) (r1.1 + r2.1)
    let M4 := nzvFill m (n-1) M3
    (M4 (m-1) (n-1), M4)
  else (M (m-1) (n-1), M)
termination_by (m, n, 1)

/-- The side-effecting loop `for i in range(j): M = nzv(m, i+1, M)[1]`
of nzv, filling column entries 1..j of row m in order. -/
def nzvFill (m j : ℕ) (M : ℕ → ℕ → ℚ) : ℕ → ℕ → ℚ :=
  match j with
  | 0 => M
  | j + 1 => (nzv m (j + 1) (nzvFill m j M)).2
termination_by (m, j, 2)

end

/-- The memo-free recurrence that nzv implements: 2 if m = 1 or n = 1,
else the sum of the two predecessors (0 outside m, n >= 1). -/
def nzvPure : ℕ → ℕ → ℚ
  | 0, _ => 0
  | _ + 1, 0 => 0
  | 1, _ + 1 => 2
  | _ + 2, 1 => 2
  | m + 2, n + 2 => nzvPure (m + 1) (n + 1) + nzvPure (m + 1) (n + 2)

lemma nzvPure_pos : ∀ m n : ℕ, 1 ≤ m → 1 ≤ n → (2 : ℚ) ≤ nzvPure m n := by
  intro m
  induction m using Nat.strong_induction_on with
  | _ m ih =>
    intro n hm hn
    match m, n with
    | 1, n + 1 => simp [nzvPure]
    | m + 2, 1 => simp [nzvPure]
    | m + 2, n + 2 =>
      have h1 := ih (m + 1) (by omega) (n + 1) (by omega) (by omega)
      have h2 := ih (m + 1) (by omega) (n + 2) (by omega) (by omega)
      rw [nzvPure]
      linarith

lemma nzvPure_base {m n : ℕ} (hm : 1 ≤ m) (hn : 1 ≤ n) (h : m = 1 ∨ n = 1) :
    nzvPure m n = 2 := by
  match m, n with
  | 1, n + 1 => rw [nzvPure]
  | m + 2, 1 => rw [nzvPure]
  | m + 2, n + 2 => omega

lemma nzvPure_rec {m n : ℕ} (hm : 2 ≤ m) (hn : 2 ≤ n) :
    nzvPure m n = nzvPure (m - 1) (n - 1) + nzvPure (m - 1) n := by
  match m, n with
  | m + 2, n + 2 =>
    rw [nzvPure]
    norm_num

/-- A memo table is valid when every set (nonzero) entry M[i, j] holds the
recurrence value for arguments (i+1, j+1). -/
def ValidTab (M : ℕ → ℕ → ℚ) : Prop :=
  ∀ i j, M i j ≠ 0 → M i j = nzvPure (i + 1) (j + 1)

lemma validTab_zero : ValidTab (fun _ _ => 0) := by
  intro i j h
  exact absurd rfl h

lemma validTab_upd {M : ℕ → ℕ → ℚ} (hM : ValidTab M) {a b : ℕ} {v : ℚ}
    (hv : v = nzvPure (a + 1) (b + 1)) : ValidTab (Mupd M a b v) := by
  intro i j h
  unfold Mupd at h ⊢
  by_cases hij : i = a ∧ j = b
  · rw [if_pos hij] at h ⊢
    rw [hv, hij.1, hij.2]
  · rw [if_neg hij] at h ⊢
    exact hM i j h

lemma nzvFill_good (m j : ℕ)
    (H : ∀ i, 1 ≤ i → i ≤ j → ∀ M, ValidTab M →
      ValidTab (nzv m i M).2 ∧ (∀ a b, M a b ≠ 0 → (nzv m i M).2 a b = M a b)) :
    ∀ M, ValidTab M → ValidTab (nzvFill m j M) ∧
      (∀ a b, M a b ≠ 0 → nzvFill m j M a b = M a b) := by
  induction j with
  | zero =>
    intro M h
    exact ⟨by rw [nzvFill]; exact h, fun a b _ => by rw [nzvFill]⟩
  | succ j ihj =>
    intro M h
    have hj := ihj (fun i h1 h2 => H i h1 (by omega)) M h
    have hh := H (j + 1) (by omega) (by omega) _ hj.1
    constructor
    · rw [nzvFill]
      exact hh.1
    · intro a b hab
      have hab2 : nzvFill m j M a b ≠ 0 := by rw [hj.2 a b hab]; exact hab
      rw [nzvFill, hh.2 a b hab2, hj.2 a b hab]

lemma nzv_good : ∀ m n M, 1 ≤ m → 1 ≤ n → ValidTab M →
    (nzv m n M).1 = nzvPure m n ∧ ValidTab (nzv m n M).2 ∧
    (∀ a b, M a b ≠ 0 → (nzv m n M).2 a b = M a b) := by
  intro m
  induction m using Nat.strong_induction_on with
  | _ m ihm =>
    intro n
    induction n using Nat.strong_induction_on with
    | _ n ihn =>
      intro M hm hn hM
      have hmn : m - 1 + 1 = m ∧ n - 1 + 1 = n := by omega
      rw [nzv, dif_neg (show ¬(m = 0 ∨ n = 0) by omega)]
      by_cases hb : m = 1 ∨ n = 1
      · rw [dif_pos hb]
        have hval : (2 : ℚ) = nzvPure (m - 1 + 1) (n - 1 + 1) := by
          rw [hmn.1, hmn.2, nzvPure_base hm hn hb]
        refine ⟨?_, validTab_upd hM hval, ?_⟩
        · show Mupd M (m - 1) (n - 1) 2 (m - 1) (n - 1) = nzvPure m n
          rw [Mupd, if_pos ⟨rfl, rfl⟩, nzvPure_base hm hn hb]
        · intro a b hab
          show Mupd M (m - 1) (n - 1) 2 a b = M a b
          rw [Mupd]
          by_cases hij : a = m - 1 ∧ b = n - 1
          · rw [if_pos hij]
            have := hM a b hab
            rw [this, hij.1, hij.2, hmn.1, hmn.2, nzvPure_base hm hn hb]
          · rw [if_neg hij]
      · rw [dif_neg hb]
        have hm2 : 2 ≤ m := by omega
        have hn2 : 2 ≤ n := by omega
        by_cases hz : M (m - 1) (n - 1) = 0
        · rw [dif_pos hz]
          obtain ⟨e1, v1, p1⟩ :=
            ihm (m - 1) (by omega) (n - 1) M (by omega) (by omega) hM
          obtain ⟨e2, v2, p2⟩ :=
            ihm (m - 1) (by omega) n (nzv (m - 1) (n - 1) M).2 (by omega) hn v1
          have hsum : (nzv (m - 1) (n - 1) M).1 + (nzv (m - 1) n (nzv (m - 1) (n - 1) M).2).1
              = nzvPure m n := by
            rw [e1, e2, nzvPure_rec hm2 hn2]
          have hval : (nzv (m - 1) (n - 1) M).1 + (nzv (m - 1) n (nzv (m - 1) (n - 1) M).2).1
              = nzvPure (m - 1 + 1) (n - 1 + 1) := by
            rw [hmn.1, hmn.2, hsum]
          have v3 := validTab_upd v2 hval
          have H : ∀ i, 1 ≤ i → i ≤ n - 1 → ∀ M0, ValidTab M0 →
              ValidTab (nzv m i M0).2 ∧ (∀ a b, M0 a b ≠ 0 → (nzv m i M0).2 a b = M0 a b) :=
            fun i h1 h2 M0 hM0 =>
              ⟨(ihn i (by omega) M0 hm h1 hM0).2.1, (ihn i (by omega) M0 hm h1 hM0).2.2⟩
          have hfill := nzvFill_good m (n - 1) H _ v3
          have hent : Mupd (nzv (m - 1) n (nzv (m - 1) (n - 1) M).2).2 (m - 1) (n - 1)
              ((nzv (m - 1) (n - 1) M).1 + (nzv (m - 1) n (nzv (m - 1) (n - 1) M).2).1)
              (m - 1) (n - 1) = nzvPure m n := by
            rw [Mupd, if_pos ⟨rfl, rfl⟩, hsum]
          have hnz : Mupd (nzv (m - 1) n (nzv (m - 1) (n - 1) M).2).2 (m - 1) (n - 1)
              ((nzv (m - 1) (n - 1) M).1 + (nzv (m - 1) n (nzv (m - 1) (n - 1) M).2).1)
              (m - 1) (n - 1) ≠ 0 := by
            rw [hent]
            have := nzvPure_pos m n hm hn
            intro hc
            rw [hc] at this
            norm_num at this
          refine ⟨?_, hfill.1, ?_⟩
          · show nzvFill m (n - 1) _ (m - 1) (n - 1) = nzvPure m n
            rw [hfill.2 (m - 1) (n - 1) hnz, hent]
          · intro a b hab
            have hne : ¬(a = m - 1 ∧ b = n - 1) := by
              intro hc
              rw [hc.1, hc.2] at hab
              exact hab hz
            have h2 : (nzv (m - 1) (n - 1) M).2 a b ≠ 0 := by
              rw [p1 a b hab]; exact hab
            have h3 : (nzv (m - 1) n (nzv (m - 1) (n - 1) M).2).2 a b ≠ 0 := by
              rw [p2 a b h2, p1 a b hab]; exact hab
            have h4 : Mupd (nzv (m - 1) n (nzv (m - 1) (n - 1) M).2).2 (m - 1) (n - 1)
                ((nzv (m - 1) (n - 1) M).1 + (nzv (m - 1) n (nzv (m - 1) (n - 1) M).2).1)
                a b ≠ 0 := by
              rw [Mupd, if_neg hne]
              exact h3
            show nzvFill m (n - 1) _ a b = M a b
            rw [hfill.2 a b h4, Mupd, if_neg hne, p2 a b h2, p1 a b hab]
        · rw [dif_neg hz]
          refine ⟨?_, hM, fun a b _ => rfl⟩
          have := hM (m - 1) (n - 1) hz
          rw [this, hmn.1, hmn.2]

/-- C3: for 1 <= n <= m, the top-level call nzv(m, n) (fresh zero memo
table, the M=None branch) returns 2 when m = 1 or n = 1, and otherwise
the sum nzv(m-1, n-1) + nzv(m-1, n); the result is a function of (m, n)
alone (deterministic and pure: the embedding threads the memo table
explicitly, and the top-level call always starts from the zero table). -/
theorem C3_nzv_recurrence (m n : ℕ) (h1 : 1 ≤ n) (h2 : n ≤ m) :
    ((m = 1 ∨ n = 1) → (nzv m n (fun _ _ => 0)).1 = 2) ∧
    (2 ≤ m → 2 ≤ n →
      (nzv m n (fun _ _ => 0)).1 =
        (nzv (m - 1) (n - 1) (fun _ _ => 0)).1 + (nzv (m - 1) n (fun _ _ => 0)).1) := by
  have hm : 1 ≤ m := by omega
  constructor
  · intro hb
    rw [(nzv_good m n _ hm h1 validTab_zero).1, nzvPure_base hm h1 hb]
  · intro hm2 hn2
    rw [(nzv_good m n _ hm h1 validTab_zero).1,
      (nzv_good (m - 1) (n - 1) _ (by omega) (by omega) validTab_zero).1,
      (nzv_good (m - 1) n _ (by omega) h1 validTab_zero).1,
      nzvPure_rec hm2 hn2]

/-- Witness for C3 at (m, n) = (3, 2): both hypotheses hold and the
recurrence applies. -/
theorem C3_witness :
    (1 ≤ 2 ∧ 2 ≤ 3) ∧
    (((3 = 1 ∨ 2 = 1) → (nzv 3 2 (fun _ _ => 0)).1 = 2) ∧
      (2 ≤ 3 → 2 ≤ 2 →
        (nzv 3 2 (fun _ _ => 0)).1 =
          (nzv 2 1 (fun _ _ => 0)).1 + (nzv 2 2 (fun _ _ => 0)).1)) :=
  ⟨by omega, C3_nzv_recurrence 3 2 (by omega) (by omega)⟩

/-! ### Zonotope vertex enumeration -/

/-- The trial loop of zonotope_vertices(W1, NY): at trial i the direction
y = rand i (np.random.normal draw) gives the sign vector
x = np.sign(np.dot(y, W1.T)) = sign(W1·y) componentwise, appended to the
list when it is not already present (exact-equality deduplication). -/
def zvList {m n : ℕ} (W1 : Matrix (Fin m) (Fin n) ℚ) (rand : ℕ → Fin n → ℚ) :
    ℕ → List (Fin m → ℚ)
  | 0 => []
  | i + 1 =>
    if signv (W1.mulVec (rand i)) ∈ zvList W1 rand i then zvList W1 rand i
    else zvList W1 rand i ++ [signv (W1.mulVec (rand i))]

/-- zonotope_vertices(W1, NY) from domains.py, the random direction
stream passed explicitly.  Returns (Y, X): X the distinct sign vectors
found in NY trials, Y = X · W1 row by row. -/
def zonotope_vertices {m n : ℕ} (W1 : Matrix (Fin m) (Fin n) ℚ) (NY : ℕ)
    (rand : ℕ → Fin n → ℚ) : List (Fin n → ℚ) × List (Fin m → ℚ) :=
  ((zvList W1 rand NY).map (fun x => Matrix.vecMul x W1), zvList W1 rand NY)

lemma zvList_mem {m n : ℕ} (W1 : Matrix (Fin m) (Fin n) ℚ)
    (rand : ℕ → Fin n → ℚ) :
    ∀ NY x, x ∈ zvList W1 rand NY → ∃ i, i < NY ∧ x = signv (W1.mulVec (rand i)) := by
  intro NY
  induction NY with
  | zero =>
    intro x hx
    rw [zvList] at hx
    exact absurd hx (List.not_mem_nil x)
  | succ k ih =>
    intro x hx
    rw [zvList] at hx
    by_cases hmem : signv (W1.mulVec (rand k)) ∈ zvList W1 rand k
    · rw [if_pos hmem] at hx
      obtain ⟨i, hi, he⟩ := ih x hx
      exact ⟨i, by omega, he⟩
    · rw [if_neg hmem] at hx
      rcases List.mem_append.mp hx with h | h
      · obtain ⟨i, hi, he⟩ := ih x h
        exact ⟨i, by omega, he⟩
      · rw [List.mem_singleton] at h
        exact ⟨k, by omega, h⟩

lemma qsign_cases (a : ℚ) : qsign a = -1 ∨ qsign a = 0 ∨ qsign a = 1 := by
  unfold qsign
  split_ifs <;> simp

lemma qsign_eq_zero_iff (a : ℚ) : qsign a = 0 ↔ a = 0 := by
  unfold qsign
  split_ifs with h1 h2
  · constructor
    · intro h; norm_num at h
    · intro h; rw [h] at h1; norm_num at h1
  · constructor
    · intro h; norm_num at h
    · intro h; rw [h] at h2; norm_num at h2
  · constructor
    · intro _; linarith
    · intro _; rfl

/-- Counterexample to C9 as stated: for W1 = [[0], [1]] (shape (2, 1)),
the upper sign vector xu = np.sign(W1) returned by interval_endpoints
has first component 0.0, not -1.0 or +1.0: numpy sign maps an exactly
zero component to 0, it is not broken to a value in {-1, +1}. -/
theorem C9_counterexample :
    ¬ ((interval_endpoints (fun i : Fin 2 => if i = 0 then 0 else 1)).2.2 0 = -1 ∨
      (interval_endpoints (fun i : Fin 2 => if i = 0 then 0 else 1)).2.2 0 = 1) := by
  rw [interval_endpoints_eq]
  simp [signv, qsign]

/-- C9 amended: every sign vector produced by the system (rows of X from
zonotope_vertices and xl, xu from interval_endpoints) has every
component in {-1.0, 0.0, +1.0}; a component is 0 exactly where the
corresponding component of the projected direction is exactly zero
(numpy sign convention), and is -1.0 or +1.0 at every nonzero
component.  There is no tie-breaking of zeros to values in {-1, +1}. -/
theorem C9_sign_vector_components {m n : ℕ} (W1 : Matrix (Fin m) (Fin n) ℚ)
    (NY : ℕ) (rand : ℕ → Fin n → ℚ) (w : Fin m → ℚ) :
    (∀ x ∈ (zonotope_vertices W1 NY rand).2, ∃ i, i < NY ∧
      x = signv (W1.mulVec (rand i))) ∧
    (∀ x ∈ (zonotope_vertices W1 NY rand).2, ∀ j,
      x j = -1 ∨ x j = 0 ∨ x j = 1) ∧
    (∀ v : Fin m → ℚ, ∀ j, signv v j = 0 ↔ v j = 0) ∧
    (∀ j, ((interval_endpoints w).2.1 j = -1 ∨ (interval_endpoints w).2.1 j = 0 ∨
        (interval_endpoints w).2.1 j = 1) ∧
      ((interval_endpoints w).2.2 j = -1 ∨ (interval_endpoints w).2.2 j = 0 ∨
        (interval_endpoints w).2.2 j = 1) ∧
      (w j ≠ 0 →
        ((interval_endpoints w).2.2 j = -1 ∨ (interval_endpoints w).2.2 j = 1) ∧
        ((interval_endpoints w).2.1 j = -1 ∨ (interval_endpoints w).2.1 j = 1))) := by
  have hx : ∀ x ∈ (zonotope_vertices W1 NY rand).2, ∃ i, i < NY ∧
      x = signv (W1.mulVec (rand i)) := fun x hx => zvList_mem W1 rand NY x hx
  refine ⟨hx, ?_, ?_, ?_⟩
  · intro x hmem j
    obtain ⟨i, _, he⟩ := hx x hmem
    rw [he]
    exact qsign_cases _
  · intro v j
    exact qsign_eq_zero_iff (v j)
  · intro j
    rw [interval_endpoints_eq]
    simp only
    refine ⟨?_, qsign_cases (w j), ?_⟩
    · rcases qsign_cases (w j) with h | h | h <;> rw [signv, h] <;> norm_num
    · intro hw
      have h0 : qsign (w j) ≠ 0 := fun hc => hw ((qsign_eq_zero_iff (w j)).mp hc)
      constructor
      · rcases qsign_cases (w j) with h | h | h
        · exact Or.inl h
        · exact absurd h h0
        · exact Or.inr h
      · rcases qsign_cases (w j) with h | h | h
        · rw [signv, h]; norm_num
        · exact absurd h h0
        · rw [signv, h]; norm_num

/-- The 1 by 1 all-ones projection matrix, used by concrete witnesses. -/
def W1one : Matrix (Fin 1) (Fin 1) ℚ := fun _ _ => 1

lemma W1one_sign : signv (Matrix.mulVec W1one (fun _ => 1)) = fun _ : Fin 1 => (1 : ℚ) := by
  funext i
  have h1 : Matrix.mulVec W1one (fun _ => (1 : ℚ)) i = 1 := by
    simp [W1one, Matrix.mulVec, Matrix.dotProduct]
  simp [signv, h1, qsign]

/-- Witness for C9 amended, at m = n = 1, W1 = [[1]], one trial with
direction draw 1, and interval input w = [1]. -/
theorem C9_sign_vector_witness :
    (∃ i, i < 1 ∧ (fun _ : Fin 1 => (1 : ℚ)) =
      signv (Matrix.mulVec W1one (fun _ => (1 : ℚ)))) ∧
    (((interval_endpoints (fun _ : Fin 1 => (1 : ℚ))).2.2 0 = -1 ∨
        (interval_endpoints (fun _ : Fin 1 => (1 : ℚ))).2.2 0 = 1) ∧
      ((interval_endpoints (fun _ : Fin 1 => (1 : ℚ))).2.1 0 = -1 ∨
        (interval_endpoints (fun _ : Fin 1 => (1 : ℚ))).2.1 0 = 1)) :=
  ⟨(C9_sign_vector_components W1one 1 (fun _ _ => 1) (fun _ => 1)).1
      (fun _ => 1) (by simp [zonotope_vertices, zvList, W1one_sign]),
    ((C9_sign_vector_components W1one 1 (fun _ _ => 1)
      (fun _ => 1)).2.2.2 0).2.2 (by norm_num)⟩

/-! ### Constrained sampler sample_z -/

/-- The hypercube feasibility test used by sample_z for a candidate
inactive point zc:
np.all(np.dot(W2, zc) <= 1-s) and np.all(np.dot(W2, zc) >= -1-s). -/
def feasibleZ {m p : ℕ} (W2 : Matrix (Fin m) (Fin p) ℚ) (s : Fin m → ℚ)
    (zc : Fin p → ℚ) : Prop :=
  ∀ i, Matrix.mulVec W2 zc i ≤ 1 - s i ∧ -1 - s i ≤ Matrix.mulVec W2 zc i

instance {m p : ℕ} (W2 : Matrix (Fin m) (Fin p) ℚ) (s : Fin m → ℚ)
    (zc : Fin p → ℚ) : Decidable (feasibleZ W2 s zc) := by
  unfold feasibleZ
  infer_instance

/-- The seed z0 of sample_z: zero when z = 0 is already feasible
(np.all(0 <= 1-s) and np.all(0 >= -1-s)); otherwise W2.T x0 with x0
the point returned by the external LP oracle
qps.linear_program_eq(0, W1.T, y, -1, 1) (utils.qp_solver, out of
scope), passed here as the parameter lpx0. -/
def seed_z {m n p : ℕ} (W1 : Matrix (Fin m) (Fin n) ℚ)
    (W2 : Matrix (Fin m) (Fin p) ℚ) (y : Fin n → ℚ) (lpx0 : Fin m → ℚ) :
    Fin p → ℚ :=
  let s := Matrix.mulVec W1 y
  if (∀ i, (0 : ℚ) ≤ 1 - s i) ∧ (∀ i, -1 - s i ≤ (0 : ℚ)) then fun _ => 0
  else Matrix.mulVec W2.transpose lpx0

/-- The chain step scale of sample_z:
sig = 0.1 * min(norm(W2 z0 + s - 1), norm(W2 z0 + s + 1)).  The
Euclidean norm routine np.linalg.norm (external numpy utility) is
passed as the parameter nrm; no property of its value is used by the
claims. -/
def sample_sig {m p : ℕ} (W2 : Matrix (Fin m) (Fin p) ℚ) (s : Fin m → ℚ)
    (nrm : (Fin m → ℚ) → ℚ) (z0 : Fin p → ℚ) : ℚ :=
  (1 / 10) * min (nrm (fun i => Matrix.mulVec W2 z0 i + s i - 1))
    (nrm (fun i => Matrix.mulVec W2 z0 i + s i + 1))

/-- One proposal step of the chain in sample_z: the candidate
zc = z + sig * xi (xi one np.random.normal draw) replaces the state
exactly when it satisfies the box constraint, else the state is kept.
No Metropolis-Hastings ratio appears. -/
def chainStep {m p : ℕ} (W2 : Matrix (Fin m) (Fin p) ℚ) (s : Fin m → ℚ)
    (sig : ℚ) (z xi : Fin p → ℚ) : Fin p → ℚ :=
  if feasibleZ W2 s (fun j => z j + sig * xi j) then fun j => z j + sig * xi j
  else z

/-- The chain state after the first k proposal steps, consuming the
random draws rand 0, ..., rand (k-1) in order; chainState at 10*N is
the state after the burn-in loop of sample_z. -/
def chainState {m p : ℕ} (W2 : Matrix (Fin m) (Fin p) ℚ) (s : Fin m → ℚ)
    (sig : ℚ) (rand : ℕ → Fin p → ℚ) (z0 : Fin p → ℚ) : ℕ → Fin p → ℚ
  | 0 => z0
  | k + 1 => chainStep W2 s sig (chainState W2 s sig rand z0 k) (rand k)

/-- The recording loop of sample_z: starting at stream position i0 with
state z, perform c proposal steps, recording the state reached after
each step (whether the candidate was accepted or rejected) as one
column of Z. -/
def sampleRec {m p : ℕ} (W2 : Matrix (Fin m) (Fin p) ℚ) (s : Fin m → ℚ)
    (sig : ℚ) (rand : ℕ → Fin p → ℚ) : ℕ → ℕ → (Fin p → ℚ) → List (Fin p → ℚ)
  | _, 0, _ => []
  | i0, c + 1, z =>
    chainStep W2 s sig z (rand i0) ::
      sampleRec W2 s sig rand (i0 + 1) c (chainStep W2 s sig z (rand i0))

/-- sample_z(N, y, W1, W2) from domains.py.  External collaborators are
passed as parameters: lpx0 is the feasible point returned by the LP
oracle (consulted only when the zero seed is infeasible), nrm is the
Euclidean norm routine np.linalg.norm, and rand is the stream of
np.random.normal proposal draws, one per proposal step, the 10*N
burn-in draws first.  The (m-n) x N output array Z is represented as
the list of its N columns. -/
def sample_z {m n p : ℕ} (N : ℕ) (y : Fin n → ℚ)
    (W1 : Matrix (Fin m) (Fin n) ℚ) (W2 : Matrix (Fin m) (Fin p) ℚ)
    (lpx0 : Fin m → ℚ) (nrm : (Fin m → ℚ) → ℚ) (rand : ℕ → Fin p → ℚ) :
    List (Fin p → ℚ) :=
  let s := Matrix.mulVec W1 y
  let z0 := seed_z W1 W2 y lpx0
  let sig := sample_sig W2 s nrm z0
  sampleRec W2 s sig rand (10 * N) N (chainState W2 s sig rand z0 (10 * N))

lemma sampleRec_eq_chainState {m p : ℕ} (W2 : Matrix (Fin m) (Fin p) ℚ)
    (s : Fin m → ℚ) (sig : ℚ) (rand : ℕ → Fin p → ℚ) (z0 : Fin p → ℚ) :
    ∀ c i0, sampleRec W2 s sig rand i0 c (chainState W2 s sig rand z0 i0) =
      (List.range c).map (fun k => chainState W2 s sig rand z0 (i0 + k + 1)) := by
  intro c
  induction c with
  | zero => intro i0; rw [sampleRec]; rfl
  | succ c ih =>
    intro i0
    rw [sampleRec]
    have hstep : chainStep W2 s sig (chainState W2 s sig rand z0 i0) (rand i0) =
        chainState W2 s sig rand z0 (i0 + 1) := by
      rw [chainState]
    rw [hstep, ih (i0 + 1), List.range_succ_eq_map]
    simp only [List.map_cons, List.map_map, Nat.add_zero]
    congr 1
    have hfun : (fun k => chainState W2 s sig rand z0 (i0 + 1 + k + 1)) =
        ((fun k => chainState W2 s sig rand z0 (i0 + k + 1)) ∘ Nat.succ) := by
      funext k
      simp only [Function.comp]
      have harg : i0 + 1 + k + 1 = i0 + Nat.succ k + 1 := by omega
      rw [harg]
    rw [hfun]

/-- C2: sample_z performs exactly 10*N burn-in proposal steps and then
exactly N recorded proposal steps; the k-th output column is the chain
state after step 10*N + k + 1, i.e. the current state after each of the
N sampling steps, accepted or not; a candidate is adopted exactly when
-1 <= W2 zc + W1 y <= 1 componentwise (chainStep, no
Metropolis-Hastings ratio); the output is the list of the N columns of
the (m-n) x N array Z. -/
theorem C2_sample_z_structure {m n p : ℕ} (N : ℕ) (y : Fin n → ℚ)
    (W1 : Matrix (Fin m) (Fin n) ℚ) (W2 : Matrix (Fin m) (Fin p) ℚ)
    (lpx0 : Fin m → ℚ) (nrm : (Fin m → ℚ) → ℚ) (rand : ℕ → Fin p → ℚ) :
    sample_z N y W1 W2 lpx0 nrm rand =
      (List.range N).map (fun k =>
        chainState W2 (Matrix.mulVec W1 y)
          (sample_sig W2 (Matrix.mulVec W1 y) nrm (seed_z W1 W2 y lpx0)) rand
          (seed_z W1 W2 y lpx0) (10 * N + k + 1)) ∧
    (sample_z N y W1 W2 lpx0 nrm rand).length = N ∧
    (∀ z xi : Fin p → ℚ,
      chainStep W2 (Matrix.mulVec W1 y)
          (sample_sig W2 (Matrix.mulVec W1 y) nrm (seed_z W1 W2 y lpx0)) z xi =
        if feasibleZ W2 (Matrix.mulVec W1 y) (fun j => z j +
            sample_sig W2 (Matrix.mulVec W1 y) nrm (seed_z W1 W2 y lpx0) * xi j)
        then fun j => z j +
          sample_sig W2 (Matrix.mulVec W1 y) nrm (seed_z W1 W2 y lpx0) * xi j
        else z) ∧
    (∀ zc : Fin p → ℚ, feasibleZ W2 (Matrix.mulVec W1 y) zc ↔
      ∀ i, -1 ≤ Matrix.mulVec W1 y i + Matrix.mulVec W2 zc i ∧
        Matrix.mulVec W1 y i + Matrix.mulVec W2 zc i ≤ 1) := by
  refine ⟨?_, ?_, fun z xi => rfl, ?_⟩
  · rw [sample_z]
    exact sampleRec_eq_chainState W2 _ _ rand _ N (10 * N)
  · rw [sample_z, sampleRec_eq_chainState W2 _ _ rand _ N (10 * N)]
    rw [List.length_map, List.length_range]
  · intro zc
    unfold feasibleZ
    constructor
    · intro h i
      obtain ⟨h1, h2⟩ := h i
      constructor <;> linarith
    · intro h i
      obtain ⟨h1, h2⟩ := h i
      constructor <;> linarith

lemma chainStep_feasible {m p : ℕ} (W2 : Matrix (Fin m) (Fin p) ℚ)
    (s : Fin m → ℚ) (sig : ℚ) {z : Fin p → ℚ} (xi : Fin p → ℚ)
    (h : feasibleZ W2 s z) : feasibleZ W2 s (chainStep W2 s sig z xi) := by
  unfold chainStep
  split_ifs with hf
  · exact hf
  · exact h

lemma chainState_feasible {m p : ℕ} (W2 : Matrix (Fin m) (Fin p) ℚ)
    (s : Fin m → ℚ) (sig : ℚ) (rand : ℕ → Fin p → ℚ) {z0 : Fin p → ℚ}
    (h : feasibleZ W2 s z0) :
    ∀ k, feasibleZ W2 s (chainState W2 s sig rand z0 k) := by
  intro k
  induction k with
  | zero => exact h
  | succ k ih =>
    rw [chainState]
    exact chainStep_feasible W2 s sig (rand k) ih

/-- C1: whenever the seed z0 computed by sample_z is feasible (z0 = 0
when the origin already satisfies -1 <= W1 y <= 1 componentwise, else
the image W2.T x0 of the LP oracle point), every column z of
sample_z(N, y, W1, W2) satisfies -1 <= W1 y + W2 z <= 1 componentwise:
a candidate is adopted only when it satisfies the constraint, so
feasibility is an invariant of every chain step.  The arithmetic is
exact rational, so no floating tolerance is needed. -/
theorem C1_sample_z_feasible {m n p : ℕ} (N : ℕ) (y : Fin n → ℚ)
    (W1 : Matrix (Fin m) (Fin n) ℚ) (W2 : Matrix (Fin m) (Fin p) ℚ)
    (lpx0 : Fin m → ℚ) (nrm : (Fin m → ℚ) → ℚ) (rand : ℕ → Fin p → ℚ)
    (hseed : feasibleZ W2 (Matrix.mulVec W1 y) (seed_z W1 W2 y lpx0)) :
    ∀ z ∈ sample_z N y W1 W2 lpx0 nrm rand,
      ∀ i, -1 ≤ Matrix.mulVec W1 y i + Matrix.mulVec W2 z i ∧
        Matrix.mulVec W1 y i + Matrix.mulVec W2 z i ≤ 1 := by
  intro z hz
  rw [sample_z, sampleRec_eq_chainState] at hz
  obtain ⟨k, _, he⟩ := List.mem_map.mp hz
  have hfe := chainState_feasible W2 (Matrix.mulVec W1 y)
    (sample_sig W2 (Matrix.mulVec W1 y) nrm (seed_z W1 W2 y lpx0)) rand hseed
    (10 * N + k + 1)
  rw [he] at hfe
  intro i
  obtain ⟨h1, h2⟩ := hfe i
  constructor <;> linarith

/-- The 2 by 1 active projection [[1], [0]] used by concrete witnesses. -/
def W1c : Matrix (Fin 2) (Fin 1) ℚ := fun i _ => if i = 0 then 1 else 0

/-- The 2 by 1 inactive projection [[0], [1]] used by concrete witnesses. -/
def W2c : Matrix (Fin 2) (Fin 1) ℚ := fun i _ => if i = 0 then 0 else 1

/-- Witness for C1 at m = 2, n = p = 1, y = 0, N = 1, zero oracle and
random streams: the seed is feasible and the theorem applies. -/
theorem C1_witness :
    feasibleZ W2c (Matrix.mulVec W1c 0) (seed_z W1c W2c 0 0) ∧
    (∀ z ∈ sample_z 1 0 W1c W2c 0 (fun _ => 0) (fun _ _ => 0),
      ∀ i, -1 ≤ Matrix.mulVec W1c 0 i + Matrix.mulVec W2c z i ∧
        Matrix.mulVec W1c 0 i + Matrix.mulVec W2c z i ≤ 1) := by
  have hs : feasibleZ W2c (Matrix.mulVec W1c 0) (seed_z W1c W2c 0 0) := by
    have h0 : Matrix.mulVec W1c (0 : Fin 1 → ℚ) = 0 := by
      funext i
      simp [W1c, Matrix.mulVec, Matrix.dotProduct]
    have hseed : seed_z W1c W2c (0 : Fin 1 → ℚ) (0 : Fin 2 → ℚ) = fun _ => 0 := by
      rw [seed_z]
      simp only [h0]
      norm_num
    intro i
    rw [hseed, h0]
    have h2 : Matrix.mulVec W2c (fun _ => (0 : ℚ)) i = 0 := by
      simp [W2c, Matrix.mulVec, Matrix.dotProduct]
    rw [h2]
    norm_num
  exact ⟨hs, C1_sample_z_feasible 1 0 W1c W2c 0 (fun _ => 0) (fun _ _ => 0) hs⟩

/-! ### Coordinate rotation and the forward/inverse map -/

/-- The concatenated coordinate vector [Y[r] ; Z[r,:,k]] seen at flat
output row j of rotate_x, with r = j / N and k = j % N: the
tile / concatenate(axis=1) / transpose((1,0,2)) / reshape((m, N*NY)) /
transpose((1,0)) sequence of rotate_x arranges the (NY, m, N) array so
that flat row j holds active row r = j / N and draw k = j % N. -/
def yzvec {n p : ℕ} (Y : ℕ → Fin n → ℚ) (Z : ℕ → Fin p → ℕ → ℚ)
    (N j : ℕ) : Fin (n + p) → ℚ :=
  Fin.addCases (fun a => Y (j / N) a) (fun a => Z (j / N) a (j % N))

/-- rotate_x(Y, Z, W) from domains.py: X = YZ · W.T row by row, and
ind = np.kron(np.arange(NY), np.ones(N)), whose j-th entry is the
float holding the integer j / N (modelled as the natural number).
Y has NY rows, Z is the (NY, m-n, N) sample batch, W the m x m
eigenvector matrix with m = n + p.  The N*NY output rows are returned
as a list of rows together with the list of row indices. -/
def rotate_x {n p : ℕ} (Y : ℕ → Fin n → ℚ) (Z : ℕ → Fin p → ℕ → ℚ)
    (W : Matrix (Fin (n + p)) (Fin (n + p)) ℚ) (NY N : ℕ) :
    List (Fin (n + p) → ℚ) × List ℕ :=
  ((List.range (NY * N)).map (fun j => Matrix.vecMul (yzvec Y Z N j) W.transpose),
    (List.range (NY * N)).map (fun j => j / N))

/-- The first n columns of the eigenvector matrix W: the active
projection W1 of the subspaces object. -/
def W1cols {n p : ℕ} (W : Matrix (Fin (n + p)) (Fin (n + p)) ℚ) :
    Matrix (Fin (n + p)) (Fin n) ℚ := fun i j => W i (Fin.castAdd p j)

/-- The last m - n columns of W: the inactive projection W2. -/
def W2cols {n p : ℕ} (W : Matrix (Fin (n + p)) (Fin (n + p)) ℚ) :
    Matrix (Fin (n + p)) (Fin p) ℚ := fun i j => W i (Fin.natAdd n j)

/-- forward(X) of ActiveVariableMap on a single row x: the pair
(x · W1, x · W2).  process_inputs (external array utility, out of
scope) is the identity on well-shaped input. -/
def forward_pt {n p : ℕ} (W : Matrix (Fin (n + p)) (Fin (n + p)) ℚ)
    (x : Fin (n + p) → ℚ) : (Fin n → ℚ) × (Fin p → ℚ) :=
  (Matrix.vecMul x (W1cols W), Matrix.vecMul x (W2cols W))

/-- C6: for an orthogonal eigenvector matrix W (W.T W = 1), applying
forward to output row r * N + k of rotate_x(Y, Z, W) recovers exactly
(Y[r], Z[r, :, k]) — the round trip between rotation and forward
projection, exact over the rationals. -/
theorem C6_rotate_forward_roundtrip {n p : ℕ} (Y : ℕ → Fin n → ℚ)
    (Z : ℕ → Fin p → ℕ → ℚ) (W : Matrix (Fin (n + p)) (Fin (n + p)) ℚ)
    (NY N r k : ℕ) (hW : W.transpose * W = 1) (hr : r < NY) (hk : k < N) :
    forward_pt W ((rotate_x Y Z W NY N).1.getD (r * N + k) (fun _ => 0)) =
      (Y r, fun a => Z r a k) := by
  have hN : 0 < N := by omega
  have hj : r * N + k < NY * N := by
    calc r * N + k < r * N + N := by omega
    _ = (r + 1) * N := by ring
    _ ≤ NY * N := Nat.mul_le_mul_right N hr
  have hget : (rotate_x Y Z W NY N).1.getD (r * N + k) (fun _ => 0) =
      Matrix.vecMul (yzvec Y Z N (r * N + k)) W.transpose := by
    rw [rotate_x]
    simp only [List.getD_eq_getElem?_getD, List.getElem?_map, List.getElem?_range, hj]
    rfl
  have hdiv : (r * N + k) / N = r := by
    rw [mul_comm, Nat.mul_add_div hN, Nat.div_eq_of_lt hk, add_zero]
  have hmod : (r * N + k) % N = k := by
    rw [mul_comm, Nat.mul_add_mod, Nat.mod_eq_of_lt hk]
  have key : Matrix.vecMul (Matrix.vecMul (yzvec Y Z N (r * N + k)) W.transpose) W =
      yzvec Y Z N (r * N + k) := by
    rw [Matrix.vecMul_vecMul, hW, Matrix.vecMul_one]
  have e1 : Matrix.vecMul (Matrix.vecMul (yzvec Y Z N (r * N + k)) W.transpose)
      (W1cols W) = Y r := by
    funext c
    have h1 : Matrix.vecMul (Matrix.vecMul (yzvec Y Z N (r * N + k)) W.transpose)
        (W1cols W) c =
        Matrix.vecMul (Matrix.vecMul (yzvec Y Z N (r * N + k)) W.transpose) W
          (Fin.castAdd p c) := rfl
    rw [h1, key, yzvec, Fin.addCases_left, hdiv]
  have e2 : Matrix.vecMul (Matrix.vecMul (yzvec Y Z N (r * N + k)) W.transpose)
      (W2cols W) = fun a => Z r a k := by
    funext c
    have h1 : Matrix.vecMul (Matrix.vecMul (yzvec Y Z N (r * N + k)) W.transpose)
        (W2cols W) c =
        Matrix.vecMul (Matrix.vecMul (yzvec Y Z N (r * N + k)) W.transpose) W
          (Fin.natAdd n c) := rfl
    rw [h1, key, yzvec, Fin.addCases_right, hdiv, hmod]
  rw [hget, forward_pt, e1, e2]

/-- Witness for C6 at n = p = 1, W the 2 by 2 identity, NY = N = 1,
r = k = 0, zero Y and Z. -/
theorem C6_witness :
    forward_pt (1 : Matrix (Fin (1 + 1)) (Fin (1 + 1)) ℚ)
        ((rotate_x (fun _ _ => 0) (fun _ _ _ => 0)
          (1 : Matrix (Fin (1 + 1)) (Fin (1 + 1)) ℚ) 1 1).1.getD (0 * 1 + 0)
          (fun _ => 0)) =
      ((fun _ _ => (0 : ℚ)) 0, fun a => (fun _ _ _ => (0 : ℚ)) 0 a 0) :=
  C6_rotate_forward_roundtrip (fun _ _ => 0) (fun _ _ _ => 0) 1 1 1 0 0
    (by rw [Matrix.transpose_one, Matrix.one_mul]) (by omega) (by omega)

/-- The argument N of inverse as a Python value: an int, or a value of
any other type (the only distinction the boundary check
`type(N) is not int` can see). -/
inductive PyArg where
  | pyInt : ℤ → PyArg
  | nonInt : PyArg
deriving DecidableEq

/-- The failures inverse can raise: the TypeError of the boundary check
in ActiveVariableMap.inverse, and the ValueError that
np.zeros((m-n, N)) raises inside sample_z when N is a negative int. -/
inductive PyErr where
  | typeErr : PyErr
  | valueErr : PyErr
deriving DecidableEq

/-- regularize_z of BoundedActiveVariableMap: entry (r, a, k) of the
(NY, m-n, N) batch is component a of column k of
sample_z(N, Y[r], W1, W2); each row r consumes its own LP oracle answer
lpx0 r and random stream rand r. -/
def regularize_z {n p : ℕ} (N : ℕ) (Y : ℕ → Fin n → ℚ)
    (W1 : Matrix (Fin (n + p)) (Fin n) ℚ) (W2 : Matrix (Fin (n + p)) (Fin p) ℚ)
    (lpx0 : ℕ → Fin (n + p) → ℚ) (nrm : (Fin (n + p) → ℚ) → ℚ)
    (rand : ℕ → ℕ → Fin p → ℚ) : ℕ → Fin p → ℕ → ℚ :=
  fun r a k => (sample_z N (Y r) W1 W2 (lpx0 r) nrm (rand r)).getD k (fun _ => 0) a

/-- inverse(Y, N) of the bounded ActiveVariableMap.  The boundary check
`if type(N) is not int: raise TypeError` rejects exactly non-int
arguments; an int N < 0 passes the boundary and only fails later when
np.zeros((m-n, N)) is reached inside sample_z (ValueError); otherwise
Z = regularize_z(Y, N) and the result is rotate_x(Y, Z, W) with W the
eigenvector matrix of the subspaces object. -/
def inverse {n p : ℕ} (Nv : PyArg) (Y : ℕ → Fin n → ℚ)
    (W : Matrix (Fin (n + p)) (Fin (n + p)) ℚ) (NY : ℕ)
    (lpx0 : ℕ → Fin (n + p) → ℚ) (nrm : (Fin (n + p) → ℚ) → ℚ)
    (rand : ℕ → ℕ → Fin p → ℚ) :
    Except PyErr (List (Fin (n + p) → ℚ) × List ℕ) :=
  match Nv with
  | PyArg.nonInt => Except.error PyErr.typeErr
  | PyArg.pyInt N =>
    if N < 0 then Except.error PyErr.valueErr
    else Except.ok (rotate_x Y
      (regularize_z N.toNat Y (W1cols W) (W2cols W) lpx0 nrm rand) W NY N.toNat)

lemma range_mul_div (NY N : ℕ) :
    (List.range (NY * N)).map (fun j => j / N) =
      (List.range NY).flatMap (fun r => List.replicate N r) := by
  induction NY with
  | zero => simp
  | succ k ih =>
    have hm : (k + 1) * N = k * N + N := by ring
    rw [hm, List.range_add (k * N) N, List.map_append, ih, List.range_succ,
      List.flatMap_append]
    congr 1
    rw [List.map_map]
    have hc : ∀ x ∈ List.range N, ((fun j => j / N) ∘ (fun x => k * N + x)) x = k := by
      intro x hx
      rw [List.mem_range] at hx
      simp only [Function.comp]
      rw [mul_comm, Nat.mul_add_div (by omega), Nat.div_eq_of_lt hx, add_zero]
    rw [List.map_congr_left hc]
    simp [List.map_const', List.length_range]

lemma count_flatMap_replicate (NY N r : ℕ) :
    ((List.range NY).flatMap (fun q => List.replicate N q)).count r =
      if r < NY then N else 0 := by
  induction NY with
  | zero => simp
  | succ k ih =>
    rw [List.range_succ, List.flatMap_append, List.count_append, ih]
    have hc : (List.flatMap [k] fun q => List.replicate N q).count r =
        if r = k then N else 0 := by
      simp [List.count_replicate]
      split_ifs with h1 h2 h2 <;> first | rfl | omega
    rw [hc]
    split_ifs <;> omega

/-- C5: inverse(Y, N) for an int N >= 0 succeeds and returns
rotate_x(Y, regularize_z(Y, N), W); and for every batch Z the output of
rotate_x has exactly NY * N full-space rows, with the row_index list
equal to N copies of 0, then N copies of 1, ..., then N copies of
NY - 1 (row-major grouping), so each value r < NY occurs exactly N
times and no other value occurs. -/
theorem C5_inverse_count {n p : ℕ} (N NY : ℕ) (Y : ℕ → Fin n → ℚ)
    (W : Matrix (Fin (n + p)) (Fin (n + p)) ℚ) (lpx0 : ℕ → Fin (n + p) → ℚ)
    (nrm : (Fin (n + p) → ℚ) → ℚ) (rand : ℕ → ℕ → Fin p → ℚ) :
    inverse (PyArg.pyInt N) Y W NY lpx0 nrm rand =
      Except.ok (rotate_x Y
        (regularize_z N Y (W1cols W) (W2cols W) lpx0 nrm rand) W NY N) ∧
    (∀ Z : ℕ → Fin p → ℕ → ℚ,
      (rotate_x Y Z W NY N).1.length = NY * N ∧
      (rotate_x Y Z W NY N).2 =
        (List.range NY).flatMap (fun r => List.replicate N r) ∧
      (∀ r, (rotate_x Y Z W NY N).2.count r = if r < NY then N else 0)) := by
  constructor
  · rw [inverse]
    rw [if_neg (by omega), Int.toNat_natCast]
  · intro Z
    refine ⟨?_, ?_, ?_⟩
    · rw [rotate_x]
      simp only [List.length_map, List.length_range]
    · rw [rotate_x]
      exact range_mul_div NY N
    · intro r
      rw [rotate_x]
      simp only
      rw [range_mul_div NY N]
      exact count_flatMap_replicate NY N r

/-- Counterexample to C7 as stated: N = 0 is an int but not a positive
integer, yet the call passes the boundary check of inverse (no
TypeError is raised) and sampling proceeds, returning the empty batch:
the positivity half of the claimed validation does not exist in the
code (only `type(N) is not int` is checked). -/
theorem C7_counterexample :
    (inverse (PyArg.pyInt 0) (fun _ _ => 0)
      (1 : Matrix (Fin (1 + 1)) (Fin (1 + 1)) ℚ) 1 (fun _ _ => 0)
      (fun _ => 0) (fun _ _ _ => 0)).isOk = true := by
  rw [inverse]
  rw [if_neg (by omega)]
  rfl

/-- C7 amended: the boundary check of inverse validates only that N is
an int: a non-int raises TypeError at the Map boundary; every int
passes the check, including 0 and negative values — a negative int
fails only later, inside the sampler (ValueError from np.zeros), and
N = 0 succeeds with an empty output. -/
theorem C7_boundary_check {n p : ℕ} (Y : ℕ → Fin n → ℚ)
    (W : Matrix (Fin (n + p)) (Fin (n + p)) ℚ) (NY : ℕ)
    (lpx0 : ℕ → Fin (n + p) → ℚ) (nrm : (Fin (n + p) → ℚ) → ℚ)
    (rand : ℕ → ℕ → Fin p → ℚ) :
    (inverse PyArg.nonInt Y W NY lpx0 nrm rand = Except.error PyErr.typeErr) ∧
    (∀ N : ℤ, inverse (PyArg.pyInt N) Y W NY lpx0 nrm rand ≠
      Except.error PyErr.typeErr) ∧
    (∀ N : ℤ, N < 0 → inverse (PyArg.pyInt N) Y W NY lpx0 nrm rand =
      Except.error PyErr.valueErr) ∧
    ((inverse (PyArg.pyInt 0) Y W NY lpx0 nrm rand).isOk = true) := by
  refine ⟨rfl, ?_, ?_, ?_⟩
  · intro N
    rw [inverse]
    split_ifs
    · intro h
      exact PyErr.noConfusion (Except.error.inj h)
    · intro h
      exact Except.noConfusion h
  · intro N hN
    rw [inverse, if_pos hN]
  · rw [inverse, if_neg (by omega)]
    rfl

/-- Witness for C7 amended at N = -1 and concrete zero arguments. -/
theorem C7_boundary_witness :
    inverse (PyArg.pyInt (-1)) (fun _ _ => 0)
        (1 : Matrix (Fin (1 + 1)) (Fin (1 + 1)) ℚ) 1 (fun _ _ => 0)
        (fun _ => 0) (fun _ _ _ => 0) = Except.error PyErr.valueErr :=
  (C7_boundary_check (fun _ _ => 0) 1 1 (fun _ _ => 0) (fun _ => 0)
    (fun _ _ _ => 0)).2.2.1 (-1) (by omega)

/-! ### Bounded domain construction (n > 1 branch) -/

/-- The else (n > 1) branch of BoundedActiveVariableDomain.__init__:
enumerate the zonotope vertices, compare the vertex count found with
the oracle value nzv(m, n) (top-level call, fresh zero table), emit a
warnings.warn message on mismatch (non-fatal: execution continues),
then build the constraints from the facet equations of the convex
hull of Y: the external routine scipy.spatial.ConvexHull (out of
scope) is passed as the parameter hull, returning the rows (a, c) of
convhull.equations, from which A = equations[:, :n] and
b = equations[:, n].  Returns ((vertY, vertX), (A, b), warnings). -/
def boundedDomain_gt1 {m n : ℕ} (W1 : Matrix (Fin m) (Fin n) ℚ) (trials : ℕ)
    (rand : ℕ → Fin n → ℚ)
    (hull : List (Fin n → ℚ) → List ((Fin n → ℚ) × ℚ)) :
    ((List (Fin n → ℚ) × List (Fin m → ℚ)) ×
      (List (Fin n → ℚ) × List ℚ)) × List String :=
  let YX := zonotope_vertices W1 trials rand
  let numverts := (nzv m n (fun _ _ => 0)).1
  let warns := if (YX.1.length : ℚ) ≠ numverts then
      ["Number of zonotope vertices should be %d but is %d"] else []
  let eqs := hull YX.1
  ((YX, (eqs.map Prod.fst, eqs.map Prod.snd)), warns)

/-- C8: when the number of vertices the enumerator found differs from
the oracle count nzv(m, n), the n > 1 domain construction emits the
(non-fatal) warning and still completes: the stored vertex set is the
one that was found, and the constraint data (A, b) is taken from the
facet equation rows of the convex hull of those vertices. -/
theorem C8_mismatch_warns {m n : ℕ} (W1 : Matrix (Fin m) (Fin n) ℚ)
    (trials : ℕ) (rand : ℕ → Fin n → ℚ)
    (hull : List (Fin n → ℚ) → List ((Fin n → ℚ) × ℚ))
    (hmis : ((zonotope_vertices W1 trials rand).1.length : ℚ) ≠
      (nzv m n (fun _ _ => 0)).1) :
    (boundedDomain_gt1 W1 trials rand hull).2 =
      ["Number of zonotope vertices should be %d but is %d"] ∧
    (boundedDomain_gt1 W1 trials rand hull).1.1 =
      zonotope_vertices W1 trials rand ∧
    (boundedDomain_gt1 W1 trials rand hull).1.2.1 =
      (hull (zonotope_vertices W1 trials rand).1).map Prod.fst ∧
    (boundedDomain_gt1 W1 trials rand hull).1.2.2 =
      (hull (zonotope_vertices W1 trials rand).1).map Prod.snd := by
  unfold boundedDomain_gt1
  simp only
  rw [if_pos hmis]
  simp

/-- The 2 by 2 all-ones (degenerate) projection used by the C8
witness. -/
def W1all : Matrix (Fin 2) (Fin 2) ℚ := fun _ _ => 1

/-- Witness for C8 at m = n = 2, W1 all ones, one enumeration trial
with direction (1, 1), empty hull oracle: one vertex is found while
the oracle expects nzv(2, 2) = 4, so the mismatch hypothesis holds and
the theorem applies. -/
theorem C8_witness :
    (((zonotope_vertices W1all 1 (fun _ _ => 1)).1.length : ℚ) ≠
      (nzv 2 2 (fun _ _ => 0)).1) ∧
    ((boundedDomain_gt1 W1all 1 (fun _ _ => 1) (fun _ => [])).2 =
      ["Number of zonotope vertices should be %d but is %d"] ∧
    (boundedDomain_gt1 W1all 1 (fun _ _ => 1) (fun _ => [])).1.1 =
      zonotope_vertices W1all 1 (fun _ _ => 1) ∧
    (boundedDomain_gt1 W1all 1 (fun _ _ => 1) (fun _ => [])).1.2.1 =
      ((fun _ => ([] : List ((Fin 2 → ℚ) × ℚ)))
        (zonotope_vertices W1all 1 (fun _ _ => 1)).1).map Prod.fst ∧
    (boundedDomain_gt1 W1all 1 (fun _ _ => 1) (fun _ => [])).1.2.2 =
      ((fun _ => ([] : List ((Fin 2 → ℚ) × ℚ)))
        (zonotope_vertices W1all 1 (fun _ _ => 1)).1).map Prod.snd) := by
  have hlen : (zonotope_vertices W1all 1 (fun _ _ => 1)).1.length = 1 := by
    simp [zonotope_vertices, zvList]
  have hnzv : (nzv 2 2 (fun _ _ => 0)).1 = 4 := by
    rw [(nzv_good 2 2 _ (by omega) (by omega) validTab_zero).1]
    have h1 : nzvPure 2 2 = nzvPure 1 1 + nzvPure 1 2 := rfl
    have h2 : nzvPure 1 1 = 2 := rfl
    have h3 : nzvPure 1 2 = 2 := rfl
    rw [h1, h2, h3]
    norm_num
  have hmis : (((zonotope_vertices W1all 1 (fun _ _ => 1)).1.length : ℚ) ≠
      (nzv 2 2 (fun _ _ => 0)).1) := by
    rw [hlen, hnzv]
    norm_num
  exact ⟨hmis, C8_mismatch_warns W1all 1 (fun _ _ => 1) (fun _ => []) hmis⟩

end Domains
